import Mathlib

/-!
Verification of the trajectory-splitting and distributed-collector core of the
repository.  The definitions below are shallow embeddings of:

* `split_trajectories` (src/torchrl/collectors/utils.py, lines 28-103), on a
  flat (1-D) rollout with `prefix=None`;
* the trajectory-id derivation loop for multi-row rollouts (lines 61-66);
* `DistributedCollector.__init__`, `sync_iterator` and `async_iterator`
  (src/torchrl/collectors/distributed/distributed_collector.py).

A rollout tensordict is modelled by its entries: one generic data column
(standing for all payload entries; padding writes zeros into it), the
`("next","done")` boolean column, and the optional `traj_ids` and `mask`
meta-entries that the function reads and writes.
-/

namespace TorchRL

/-- Maximum of a list of naturals (`max(...)` over run lengths; `0` on `[]`). -/
def maxL (l : List Nat) : Nat := l.foldr max 0

/-- Inclusive cumulative sum of a boolean column viewed as 0/1 integers,
starting from accumulator `acc`: the embedding of `done.cumsum(-1)` on the
tail of a 1-D tensor. -/
def cumsumBoolFrom (acc : Nat) : List Bool → List Nat
  | [] => []
  | b :: l =>
    let acc' := acc + (if b then 1 else 0)
    acc' :: cumsumBoolFrom acc' l

/-- `done.cumsum(-1)` on a 1-D boolean tensor. -/
def cumsumBool (l : List Bool) : List Nat := cumsumBoolFrom 0 l

/-- The row-offset loop of `split_trajectories`: for `i in range(1, B)`,
`traj_ids[i] += traj_ids[i-1].max()`, where row `i-1` has already been
offset. `m` is the maximum of the previous (already offset) row. -/
def offsetRows (m : Nat) : List (List Nat) → List (List Nat)
  | [] => []
  | r :: rest =>
    let r' := r.map (· + m)
    r' :: offsetRows (maxL r') rest

/-- Trajectory-id derivation for a rollout of shape `[B, T]` with no
`traj_ids` entry: per-row inclusive cumsum of `("next","done")`, then each
row after the first is offset by the previous (offset) row's maximum. -/
def computeTrajIds (done : List (List Bool)) : List (List Nat) :=
  match done.map cumsumBool with
  | [] => []
  | r :: rest => r :: offsetRows (maxL r) rest

/-- `splits.unique_consecutive()`: adjacent duplicates removed. -/
def uniqueConsecutive : List Nat → List Nat
  | [] => []
  | [a] => [a]
  | a :: b :: l =>
    if a = b then uniqueConsecutive (b :: l)
    else a :: uniqueConsecutive (b :: l)

/-- `[(splits == i).sum().item() for i in splits.unique_consecutive()]`:
for each value of the deduplicated id sequence, how often it occurs in the
whole id sequence. -/
def splitSizes (ids : List Nat) : List Nat :=
  (uniqueConsecutive ids).map (fun v => ids.count v)

/-- `tensor.split(sizes, 0)`: successive chunks of the given sizes. -/
def splitChunks (sizes : List Nat) (l : List α) : List (List α) :=
  match sizes with
  | [] => []
  | s :: ss => l.take s :: splitChunks ss (l.drop s)

/-- `pad(t, [0, n - len])`: right-pad a column to length `n` with `z`. -/
def padTo (n : Nat) (z : α) (l : List α) : List α :=
  l ++ List.replicate (n - l.length) z

/-- The guard `len(set(splits)) == 1 and splits[0] == traj_ids.shape[-1]`
deciding the fast (no-reshape) path. -/
def fastPathCond (sizes : List Nat) (lastDim : Nat) : Bool :=
  sizes.dedup.length == 1 && sizes.head? == some lastDim

/-- A flat (1-D) rollout tensordict: payload column, `("next","done")`
column, and the optional `traj_ids` / `mask` meta-entries. -/
structure Rollout (α : Type) where
  data : List α
  next_done : List Bool
  traj_ids : Option (List Nat)
  mask : Option (List Bool)
deriving Repr, DecidableEq

/-- The `[B, T]` batch returned by `split_trajectories`: each entry split
into per-trajectory rows, zero-padded to a common length. -/
structure SplitBatch (α : Type) where
  data : List (List α)
  next_done : List (List Bool)
  traj_ids : List (List Nat)
  mask : List (List Bool)
deriving Repr, DecidableEq

/-- The trajectory ids `split_trajectories` works with: the input's
`traj_ids` entry when present, else derived from `("next","done")`. -/
def trajIdsOf (r : Rollout α) : List Nat :=
  match r.traj_ids with
  | some t => t
  | none => cumsumBool r.next_done

/-- Shallow embedding of `split_trajectories` on a flat rollout with
`prefix=None`.  Returns the post-call state of the input tensordict first
(the function sets `traj_ids` — and, on the fast path, `mask` — on its own
argument) and the returned batch second.

Source, line by line: read `traj_ids`, deriving them from
`("next","done").cumsum(-1)` and writing them back when absent; compute the
occurrence counts of the consecutive-unique ids; if they are all equal and
match the last-dimension size, set an all-ones `mask` on the input and
return it unsqueezed to `[1, T]`; otherwise split every entry into chunks,
give each chunk an all-ones mask, right-pad each chunk with zeros to the
maximum chunk length and stack. -/
def splitTrajectories [Zero α] (r : Rollout α) : Rollout α × SplitBatch α :=
  let ids := trajIdsOf r
  let r1 : Rollout α := match r.traj_ids with
    | some _ => r
    | none => { r with traj_ids := some ids }
  let sizes := splitSizes ids
  if fastPathCond sizes ids.length then
    let r2 : Rollout α := { r1 with mask := some (List.replicate r.data.length true) }
    (r2,
      { data := [r2.data], next_done := [r2.next_done],
        traj_ids := [ids], mask := [List.replicate r.data.length true] })
  else
    let dataChunks := splitChunks sizes r.data
    let doneChunks := splitChunks sizes r.next_done
    let idChunks := splitChunks sizes ids
    let lens := dataChunks.map List.length
    let M := maxL lens
    (r1,
      { data := dataChunks.map (padTo M 0),
        next_done := doneChunks.map (padTo M false),
        traj_ids := idChunks.map (padTo M 0),
        mask := lens.map (fun s => List.replicate s true ++ List.replicate (M - s) false) })

/-- Select the entries of a row at the positions where the mask is true. -/
def maskSelect (row : List α) (m : List Bool) : List α :=
  ((row.zip m).filter (fun p => p.2)).map Prod.fst

/-- Re-flatten a padded batch by its mask: concatenate, row by row, the
entries at mask-true positions. -/
def flattenByMask (rows : List (List α)) (ms : List (List Bool)) : List α :=
  ((rows.zip ms).map (fun p => maskSelect p.1 p.2)).flatten

/-! Helper lemmas about the list operations underlying the embedding. -/

theorem le_maxL {l : List Nat} {x : Nat} (hx : x ∈ l) : x ≤ maxL l := by
  induction l with
  | nil => cases hx
  | cons a l ih =>
    rcases List.mem_cons.mp hx with h | h
    · subst h; exact Nat.le_max_left _ _
    · exact le_trans (ih h) (Nat.le_max_right _ _)

theorem maxL_le {l : List Nat} {t : Nat} (h : ∀ x ∈ l, x ≤ t) : maxL l ≤ t := by
  induction l with
  | nil => exact Nat.zero_le t
  | cons a l ih =>
    exact Nat.max_le.mpr ⟨h a (List.mem_cons_self a l), ih fun x hx => h x (List.mem_cons_of_mem a hx)⟩

theorem splitChunks_flatten {sizes : List Nat} {l : List α}
    (h : sizes.sum = l.length) : (splitChunks sizes l).flatten = l := by
  induction sizes generalizing l with
  | nil =>
    simp only [List.sum_nil] at h
    simp [splitChunks, (List.eq_nil_of_length_eq_zero h.symm)]
  | cons s ss ih =>
    simp only [List.sum_cons] at h
    have hs : s ≤ l.length := le_trans (Nat.le_add_right s ss.sum) (le_of_eq h)
    have hdrop : ss.sum = (l.drop s).length := by
      simp [List.length_drop]
      omega
    simp [splitChunks, ih hdrop]

theorem splitChunks_lengths {sizes : List Nat} {l : List α}
    (h : sizes.sum ≤ l.length) : (splitChunks sizes l).map List.length = sizes := by
  induction sizes generalizing l with
  | nil => simp [splitChunks]
  | cons s ss ih =>
    simp only [List.sum_cons] at h
    have hs : s ≤ l.length := le_trans (Nat.le_add_right s ss.sum) h
    have hdrop : ss.sum ≤ (l.drop s).length := by
      simp [List.length_drop]
      omega
    simp [splitChunks, ih hdrop, Nat.min_eq_left hs]

theorem padTo_length {l : List α} {n : Nat} (z : α) (h : l.length ≤ n) :
    (padTo n z l).length = n := by
  simp [padTo]
  omega

theorem maskSelect_all_true (l : List α) :
    maskSelect l (List.replicate l.length true) = l := by
  induction l with
  | nil => rfl
  | cons a l ih => simpa [maskSelect, List.replicate_succ, List.zip_cons_cons] using ih

theorem maskSelect_all_false (l : List α) (k : Nat) :
    maskSelect l (List.replicate k false) = [] := by
  induction l generalizing k with
  | nil => rfl
  | cons a l ih =>
    cases k with
    | zero => rfl
    | succ m => simpa [maskSelect, List.replicate_succ, List.zip_cons_cons] using ih m

theorem maskSelect_append {l₁ l₂ : List α} {m₁ m₂ : List Bool}
    (h : l₁.length = m₁.length) :
    maskSelect (l₁ ++ l₂) (m₁ ++ m₂) = maskSelect l₁ m₁ ++ maskSelect l₂ m₂ := by
  simp [maskSelect, List.zip_append h, List.filter_append]

theorem maskSelect_pad (c : List α) (M : Nat) (z : α) :
    maskSelect (padTo M z c)
      (List.replicate c.length true ++ List.replicate (M - c.length) false) = c := by
  rw [padTo, maskSelect_append (by simp), maskSelect_all_true,
    maskSelect_all_false, List.append_nil]

theorem flattenByMask_pad (chunks : List (List α)) (M : Nat) (z : α) :
    flattenByMask (chunks.map (padTo M z))
      (chunks.map (fun c => List.replicate c.length true ++
        List.replicate (M - c.length) false)) = chunks.flatten := by
  induction chunks with
  | nil => rfl
  | cons c cs ih =>
    simp only [List.map_cons, flattenByMask, List.zip_cons_cons, List.flatten_cons,
      List.flatten] at ih ⊢
    rw [maskSelect_pad]
    exact congrArg (c ++ ·) ih

theorem uniqueConsecutive_ne_nil {l : List Nat} (h : l ≠ []) :
    uniqueConsecutive l ≠ [] := by
  induction l with
  | nil => exact absurd rfl h
  | cons a l ih =>
    cases l with
    | nil => simp [uniqueConsecutive]
    | cons b l' =>
      by_cases hab : a = b
      · simpa [uniqueConsecutive, hab] using ih (by simp)
      · simp [uniqueConsecutive, hab]

theorem uniqueConsecutive_replicate {n : Nat} (hn : 0 < n) (v : Nat) :
    uniqueConsecutive (List.replicate n v) = [v] := by
  induction n with
  | zero => cases hn
  | succ m ih =>
    cases m with
    | zero => rfl
    | succ k =>
      have := ih (Nat.succ_pos k)
      simpa [List.replicate_succ, uniqueConsecutive] using this

theorem uniqueConsecutive_singleton {l : List Nat} {v : Nat}
    (h : uniqueConsecutive l = [v]) : l = List.replicate l.length v := by
  induction l with
  | nil => simp [uniqueConsecutive] at h
  | cons a l ih =>
    cases l with
    | nil =>
      simp only [uniqueConsecutive, List.cons.injEq] at h
      simp [h.1, List.replicate]
    | cons b l' =>
      by_cases hab : a = b
      · rw [uniqueConsecutive, if_pos hab] at h
        have hrec := ih h
        have hb : b = v := by
          have : b ∈ (b :: l') := List.mem_cons_self b l'
          rw [hrec] at this
          exact List.eq_of_mem_replicate this
        calc a :: b :: l' = v :: (b :: l') := by rw [hab, hb]
          _ = v :: List.replicate (b :: l').length v := by rw [← hrec]
          _ = List.replicate (a :: b :: l').length v := by
              simp [List.replicate_succ]
      · rw [uniqueConsecutive, if_neg hab] at h
        have h2 : uniqueConsecutive (b :: l') = [] := by
          simpa using congrArg List.tail h
        exact absurd h2 (uniqueConsecutive_ne_nil (by simp))

theorem splitSizes_replicate {n : Nat} (hn : 0 < n) (v : Nat) :
    splitSizes (List.replicate n v) = [n] := by
  rw [splitSizes, uniqueConsecutive_replicate hn, List.map_singleton,
    List.count_replicate_self]

theorem fastPathCond_replicate {n : Nat} (hn : 0 < n) (v : Nat) :
    fastPathCond (splitSizes (List.replicate n v)) n = true := by
  have h1 : ([n] : List Nat).dedup = [n] := by
    rw [List.dedup_cons_of_not_mem (by simp), List.dedup_nil]
  simp [splitSizes_replicate hn, fastPathCond, h1]

/-- The fast-path guard of `split_trajectories` holds precisely on a single
run of ids spanning the whole (1-D) input, provided the occurrence counts of
the consecutive-unique ids add up to the input length (the well-formedness
under which `tensor.split` succeeds). -/
theorem fastPathCond_iff_single_run {ids : List Nat} (hne : ids ≠ [])
    (hsum : (splitSizes ids).sum = ids.length) :
    fastPathCond (splitSizes ids) ids.length = true ↔
      ∃ v, ids = List.replicate ids.length v := by
  constructor
  · intro hc
    rw [fastPathCond, Bool.and_eq_true, beq_iff_eq, beq_iff_eq] at hc
    obtain ⟨hd, hh⟩ := hc
    obtain ⟨s, hs⟩ : ∃ s, (splitSizes ids).dedup = [s] := by
      cases hdd : (splitSizes ids).dedup with
      | nil => rw [hdd] at hd; cases hd
      | cons x xs =>
        cases xs with
        | nil => exact ⟨x, rfl⟩
        | cons y ys => rw [hdd] at hd; simp at hd
    have hall : ∀ x ∈ splitSizes ids, x = s := by
      intro x hx
      have : x ∈ (splitSizes ids).dedup := List.mem_dedup.mpr hx
      rw [hs] at this
      simpa using this
    have hTmem : ids.length ∈ splitSizes ids := by
      cases hsz : splitSizes ids with
      | nil => rw [hsz] at hh; cases hh
      | cons a t =>
        rw [hsz] at hh
        simp only [List.head?_cons, Option.some.injEq] at hh
        exact List.mem_cons.mpr (Or.inl hh.symm)
    have hTs : ids.length = s := hall _ hTmem
    have hrep : splitSizes ids = List.replicate (splitSizes ids).length s :=
      List.eq_replicate_of_mem hall
    have hsum2 : (splitSizes ids).length * s = ids.length := by
      rw [hrep] at hsum
      simpa [List.sum_replicate, smul_eq_mul] using hsum
    have hTpos : 0 < ids.length := List.length_pos.mpr hne
    have hlen1 : (splitSizes ids).length = 1 := by
      have hspos : 0 < s := hTs ▸ hTpos
      have : (splitSizes ids).length * s = 1 * s := by
        rw [hsum2, one_mul, hTs]
      exact Nat.eq_of_mul_eq_mul_right hspos this
    have huc1 : (uniqueConsecutive ids).length = 1 := by
      simpa [splitSizes] using hlen1
    obtain ⟨v, hv⟩ : ∃ v, uniqueConsecutive ids = [v] := by
      cases huc : uniqueConsecutive ids with
      | nil => rw [huc] at huc1; cases huc1
      | cons x xs =>
        cases xs with
        | nil => exact ⟨x, rfl⟩
        | cons y ys => rw [huc] at huc1; simp at huc1
    exact ⟨v, uniqueConsecutive_singleton hv⟩
  · rintro ⟨v, hv⟩
    have hTpos : 0 < ids.length := List.length_pos.mpr hne
    conv_lhs => rw [hv]
    simp only [List.length_replicate]
    exact fastPathCond_replicate hTpos v

/-- On the fast path the returned batch is the input unsqueezed to a
length-1 leading dimension, with an all-true mask. -/
theorem splitTrajectories_fast [Zero α] (r : Rollout α)
    (hcond : fastPathCond (splitSizes (trajIdsOf r)) (trajIdsOf r).length = true) :
    (splitTrajectories r).2 =
      { data := [r.data], next_done := [r.next_done],
        traj_ids := [trajIdsOf r],
        mask := [List.replicate r.data.length true] } := by
  cases hid : r.traj_ids <;>
    simp [splitTrajectories, trajIdsOf, hid] at hcond ⊢ <;>
    simp [hcond]

/-- Off the fast path the returned batch is the zero-padded stack of the
per-run chunks with their prefix-true masks. -/
theorem splitTrajectories_slow [Zero α] (r : Rollout α)
    (hcond : fastPathCond (splitSizes (trajIdsOf r)) (trajIdsOf r).length = false) :
    (splitTrajectories r).2 =
      { data := (splitChunks (splitSizes (trajIdsOf r)) r.data).map
          (padTo (maxL ((splitChunks (splitSizes (trajIdsOf r)) r.data).map List.length)) 0),
        next_done := (splitChunks (splitSizes (trajIdsOf r)) r.next_done).map
          (padTo (maxL ((splitChunks (splitSizes (trajIdsOf r)) r.data).map List.length)) false),
        traj_ids := (splitChunks (splitSizes (trajIdsOf r)) (trajIdsOf r)).map
          (padTo (maxL ((splitChunks (splitSizes (trajIdsOf r)) r.data).map List.length)) 0),
        mask := ((splitChunks (splitSizes (trajIdsOf r)) r.data).map List.length).map
          (fun s => List.replicate s true ++
            List.replicate
              (maxL ((splitChunks (splitSizes (trajIdsOf r)) r.data).map List.length) - s)
              false) } := by
  cases hid : r.traj_ids <;>
    simp [splitTrajectories, trajIdsOf, hid] at hcond ⊢ <;>
    simp [hcond]

theorem count_true_flatten (ms : List (List Bool)) :
    ms.flatten.count true = (ms.map (fun m => m.count true)).sum := by
  induction ms with
  | nil => rfl
  | cons m ms ih => simp [List.count_append, ih]

theorem dedup_length_ne_one {sizes : List Nat}
    (hmix : ∃ s ∈ sizes, ∃ s' ∈ sizes, s ≠ s') : sizes.dedup.length ≠ 1 := by
  obtain ⟨s, hs, s', hs', hne⟩ := hmix
  intro h1
  obtain ⟨x, hx⟩ : ∃ x, sizes.dedup = [x] := by
    cases hdd : sizes.dedup with
    | nil => rw [hdd] at h1; cases h1
    | cons a t =>
      cases t with
      | nil => exact ⟨a, rfl⟩
      | cons b u => rw [hdd] at h1; simp at h1
  have h2 : s = x := by
    have := List.mem_dedup.mpr hs
    rw [hx] at this
    simpa using this
  have h3 : s' = x := by
    have := List.mem_dedup.mpr hs'
    rw [hx] at this
    simpa using this
  exact hne (h2.trans h3.symm)

/-- Claim C1: on an input whose trajectory runs have mixed lengths,
`split_trajectories` right-pads every run to the maximum run length with
zero-valued entries and attaches a mask that is true exactly on the real
positions; the mask's true-count equals the number of input transitions, and
re-flattening the output by the mask recovers the original flat sequence. -/
theorem split_trajectories_mixed_lengths [Zero α] (r : Rollout α)
    (ids sizes : List Nat) (M : Nat)
    (hids : trajIdsOf r = ids)
    (hsz : splitSizes ids = sizes)
    (hM : maxL sizes = M)
    (hlen : ids.length = r.data.length)
    (hsum : sizes.sum = ids.length)
    (hmix : ∃ s ∈ sizes, ∃ s' ∈ sizes, s ≠ s') :
    (splitTrajectories r).2.mask =
      sizes.map (fun s => List.replicate s true ++ List.replicate (M - s) false) ∧
    (∀ row ∈ (splitTrajectories r).2.data, row.length = M) ∧
    (∀ pr ∈ (splitTrajectories r).2.data.zip (splitTrajectories r).2.mask,
      ∀ q ∈ pr.1.zip pr.2, q.2 = false → q.1 = (0 : α)) ∧
    (splitTrajectories r).2.mask.flatten.count true = r.data.length ∧
    flattenByMask (splitTrajectories r).2.data (splitTrajectories r).2.mask = r.data := by
  have hcond : fastPathCond (splitSizes (trajIdsOf r)) (trajIdsOf r).length = false := by
    rw [hids, hsz, fastPathCond]
    have : (sizes.dedup.length == 1) = false :=
      beq_eq_false_iff_ne.mpr (dedup_length_ne_one hmix)
    rw [this, Bool.false_and]
  have hout := splitTrajectories_slow r hcond
  rw [hids, hsz] at hout
  have hsum' : sizes.sum ≤ r.data.length := hlen ▸ le_of_eq hsum
  have hlens : (splitChunks sizes r.data).map List.length = sizes :=
    splitChunks_lengths hsum'
  rw [hout, hlens, hM]
  have hflat : (splitChunks sizes r.data).flatten = r.data :=
    splitChunks_flatten (hlen ▸ hsum)
  have hmask :
      sizes.map (fun s => List.replicate s true ++ List.replicate (M - s) false) =
        (splitChunks sizes r.data).map
          (fun c => List.replicate c.length true ++
            List.replicate (M - c.length) false) := by
    conv_lhs => rw [← hlens]
    rw [List.map_map]
    rfl
  refine ⟨rfl, ?_, ?_, ?_, ?_⟩
  · intro row hrow
    simp only [List.mem_map] at hrow
    obtain ⟨c, hc, hrow⟩ := hrow
    have hmem : c.length ∈ sizes := by
      rw [← hlens]
      exact List.mem_map_of_mem List.length hc
    have hcM : c.length ≤ M := hM ▸ le_maxL hmem
    rw [← hrow, padTo_length 0 hcM]
  · intro pr hpr q hq hq2
    rw [hmask, List.zip_map'] at hpr
    simp only [List.mem_map] at hpr
    obtain ⟨c, hc, hpr⟩ := hpr
    rw [← hpr] at hq
    simp only at hq
    rw [padTo] at hq
    have hzip : (c ++ List.replicate (M - c.length) (0 : α)).zip
        (List.replicate c.length true ++ List.replicate (M - c.length) false) =
        c.zip (List.replicate c.length true) ++
          (List.replicate (M - c.length) (0 : α)).zip
            (List.replicate (M - c.length) false) :=
      List.zip_append (by simp)
    rw [hzip] at hq
    obtain ⟨x, y⟩ := q
    rcases List.mem_append.mp hq with hl | hr
    · have hy := (List.of_mem_zip hl).2
      have hyt : y = true := List.eq_of_mem_replicate hy
      simp only at hq2
      rw [hq2] at hyt
      cases hyt
    · have hx := (List.of_mem_zip hr).1
      simpa using List.eq_of_mem_replicate hx
  · rw [count_true_flatten, List.map_map]
    have hcomp : ((fun m => List.count true m) ∘
        fun s => List.replicate s true ++ List.replicate (M - s) false) =
        fun s => s := by
      funext s
      simp [List.count_append, List.count_replicate]
    rw [hcomp]
    simpa using hlen ▸ hsum
  · rw [hmask, flattenByMask_pad, hflat]

/-- Objects used to instantiate the claims about `split_trajectories` at
concrete inputs. -/
def rMixed : Rollout Int :=
  { data := [1, 2, 3], next_done := [false, false, false],
    traj_ids := some [0, 0, 1], mask := none }

theorem split_trajectories_mixed_lengths_witness :
    flattenByMask (splitTrajectories rMixed).2.data (splitTrajectories rMixed).2.mask =
      rMixed.data :=
  (split_trajectories_mixed_lengths rMixed [0, 0, 1] [2, 1] 2 rfl (by decide) (by decide)
    (by decide) (by decide) (by decide)).2.2.2.2

/-- Claim C8: an input made of a single trajectory run spanning the whole
flat input yields a valid `[1, T]` batch with an all-true mask. -/
theorem split_trajectories_single_run [Zero α] (r : Rollout α) (v : Nat)
    (hids : trajIdsOf r = List.replicate r.data.length v)
    (hne : r.data ≠ []) :
    (splitTrajectories r).2.data = [r.data] ∧
    (splitTrajectories r).2.data.length = 1 ∧
    (splitTrajectories r).2.mask = [List.replicate r.data.length true] ∧
    (∀ row ∈ (splitTrajectories r).2.data, row.length = r.data.length) := by
  have hTpos : 0 < r.data.length := List.length_pos.mpr hne
  have hcond : fastPathCond (splitSizes (trajIdsOf r)) (trajIdsOf r).length = true := by
    rw [hids, List.length_replicate]
    exact fastPathCond_replicate hTpos v
  have hout := splitTrajectories_fast r hcond
  rw [hout]
  refine ⟨rfl, rfl, rfl, ?_⟩
  intro row hrow
  have : row = r.data := by simpa using hrow
  rw [this]

def rSingle : Rollout Int :=
  { data := [4, 5], next_done := [false, false], traj_ids := none, mask := none }

theorem split_trajectories_single_run_witness :
    (splitTrajectories rSingle).2.data = [rSingle.data] :=
  (split_trajectories_single_run rSingle 0 (by decide) (by decide)).1

/-- An input whose two runs have equal length 2 but flat length 4: the
claimed fast path is not taken. -/
def rEqualRuns : Rollout Int :=
  { data := [10, 20, 30, 40], next_done := [false, true, false, true],
    traj_ids := some [0, 0, 1, 1], mask := none }

/-- Counterexample to claim C2: two equal-length runs of length 2 inside a
flat input of length 4 give equal occurrence counts `[2, 2]`, yet the guard
compares the common count against the last-dimension size 4 and fails, so
the slow (reshaping) path runs and the result is a `[2, 2]` batch, not the
flat sequence unsqueezed to `[1, 4]`. -/
theorem split_trajectories_fast_path_cex :
    splitSizes [0, 0, 1, 1] = [2, 2] ∧
    ([2, 2] : List Nat).dedup.length = 1 ∧
    fastPathCond (splitSizes [0, 0, 1, 1]) 4 = false ∧
    (splitTrajectories rEqualRuns).2.data = [[10, 20], [30, 40]] ∧
    (splitTrajectories rEqualRuns).2.data ≠ [[10, 20, 30, 40]] := by
  decide

/-- Claim C2 (amended): over a flat input with well-formed ids, the fast
path is taken iff the runs all share one length AND that length equals the
last-dimension size — that is, iff a single run spans the whole input — and
in that case the result is the flat sequence unsqueezed, with an all-true
mask and no padding. -/
theorem split_trajectories_fast_path_iff [Zero α] (r : Rollout α) (ids : List Nat)
    (hids : trajIdsOf r = ids)
    (hne : ids ≠ [])
    (hsum : (splitSizes ids).sum = ids.length) :
    (fastPathCond (splitSizes ids) ids.length = true ↔
      ∃ v, ids = List.replicate ids.length v) ∧
    (fastPathCond (splitSizes ids) ids.length = true →
      (splitTrajectories r).2.data = [r.data] ∧
      (splitTrajectories r).2.next_done = [r.next_done] ∧
      (splitTrajectories r).2.traj_ids = [ids] ∧
      (splitTrajectories r).2.mask = [List.replicate r.data.length true]) := by
  refine ⟨fastPathCond_iff_single_run hne hsum, fun hc => ?_⟩
  have hout := splitTrajectories_fast r (by rw [hids]; exact hc)
  rw [hout, hids]
  exact ⟨rfl, rfl, rfl, rfl⟩

def rFast : Rollout Int :=
  { data := [1, 2], next_done := [false, false], traj_ids := some [7, 7], mask := none }

theorem split_trajectories_fast_path_iff_witness :
    fastPathCond (splitSizes [7, 7]) ([7, 7] : List Nat).length = true ↔
      ∃ v, ([7, 7] : List Nat) = List.replicate ([7, 7] : List Nat).length v :=
  (split_trajectories_fast_path_iff rFast [7, 7] rfl (by decide) (by decide)).1

/-- An input with no `traj_ids` entry. -/
def rNoIds : Rollout Int :=
  { data := [5], next_done := [true], traj_ids := none, mask := none }

/-- Counterexample to claim C7: `split_trajectories` is not pure in its
input — on an input with no `traj_ids` it writes the derived ids (and, on
the fast path, the mask) into the input tensordict, so the input observed
after the call differs from the one passed in. -/
theorem split_trajectories_not_pure_cex :
    (splitTrajectories rNoIds).1 ≠ rNoIds ∧
    rNoIds.traj_ids = none ∧
    (splitTrajectories rNoIds).1.traj_ids = some [1] ∧
    (splitTrajectories rNoIds).1.mask = some [true] := by
  decide

/-- Claim C7 (amended): `split_trajectories` is stateless across calls but
mutates its input: it sets `traj_ids` on the input when absent and, on the
fast path, sets the `mask` entry; the payload and `("next","done")` entries
are never modified. -/
theorem split_trajectories_mutation [Zero α] (r : Rollout α) :
    (splitTrajectories r).1.data = r.data ∧
    (splitTrajectories r).1.next_done = r.next_done ∧
    (splitTrajectories r).1.traj_ids = some (trajIdsOf r) ∧
    ((splitTrajectories r).1.mask = r.mask ∨
      (splitTrajectories r).1.mask = some (List.replicate r.data.length true)) := by
  cases hid : r.traj_ids with
  | some t =>
    by_cases hc : fastPathCond (splitSizes (trajIdsOf r)) (trajIdsOf r).length = true
    · refine ⟨?_, ?_, ?_, Or.inr ?_⟩ <;>
        simp [splitTrajectories, trajIdsOf, hid] at hc ⊢ <;> simp [hc, hid]
    · rw [Bool.not_eq_true] at hc
      refine ⟨?_, ?_, ?_, Or.inl ?_⟩ <;>
        simp [splitTrajectories, trajIdsOf, hid] at hc ⊢ <;> simp [hc, hid]
  | none =>
    by_cases hc : fastPathCond (splitSizes (trajIdsOf r)) (trajIdsOf r).length = true
    · refine ⟨?_, ?_, ?_, Or.inr ?_⟩ <;>
        simp [splitTrajectories, trajIdsOf, hid] at hc ⊢ <;> simp [hc, hid]
    · rw [Bool.not_eq_true] at hc
      refine ⟨?_, ?_, ?_, Or.inl ?_⟩ <;>
        simp [splitTrajectories, trajIdsOf, hid] at hc ⊢ <;> simp [hc, hid]

/-! Lemmas on the derived trajectory ids (cumulative sum of done flags). -/

theorem cumsumBoolFrom_length (l : List Bool) (a : Nat) :
    (cumsumBoolFrom a l).length = l.length := by
  induction l generalizing a with
  | nil => rfl
  | cons b l ih => simp [cumsumBoolFrom, ih]

theorem cumsumBoolFrom_head {l : List Bool} (hne : l ≠ []) (a : Nat) :
    (cumsumBoolFrom a l).getD 0 0 = a + (if l.getD 0 false then 1 else 0) := by
  cases l with
  | nil => exact absurd rfl hne
  | cons b l => rfl

theorem cumsumBoolFrom_step (l : List Bool) (a k : Nat) (hk : k + 1 < l.length) :
    (cumsumBoolFrom a l).getD (k + 1) 0 =
      (cumsumBoolFrom a l).getD k 0 + (if l.getD (k + 1) false then 1 else 0) := by
  induction l generalizing a k with
  | nil => simp at hk
  | cons b l ih =>
    cases k with
    | zero =>
      have hne : l ≠ [] := by
        intro h
        rw [h] at hk
        simp at hk
      show (cumsumBoolFrom (a + if b then 1 else 0) l).getD 0 0 = _
      rw [cumsumBoolFrom_head hne]
      rfl
    | succ j =>
      have hj : j + 1 < l.length := by
        simpa [Nat.succ_lt_succ_iff] using hk
      show (cumsumBoolFrom (a + if b then 1 else 0) l).getD (j + 1) 0 = _
      rw [ih _ j hj]
      rfl

theorem cumsumBoolFrom_chain (l : List Bool) (a : Nat) :
    List.Chain' (· ≤ ·) (cumsumBoolFrom a l) ∧ ∀ x ∈ cumsumBoolFrom a l, a ≤ x := by
  induction l generalizing a with
  | nil => exact ⟨List.chain'_nil, by simp [cumsumBoolFrom]⟩
  | cons b l ih =>
    obtain ⟨ihc, ihm⟩ := ih (a + if b then 1 else 0)
    constructor
    · rw [cumsumBoolFrom, List.chain'_cons']
      refine ⟨fun y hy => ?_, ihc⟩
      have : y ∈ cumsumBoolFrom (a + if b then 1 else 0) l := by
        cases hcs : cumsumBoolFrom (a + if b then 1 else 0) l with
        | nil => rw [hcs] at hy; cases hy
        | cons c t =>
          rw [hcs] at hy
          simp only [List.head?_cons, Option.mem_def, Option.some.injEq] at hy
          rw [← hy]
          exact List.mem_cons_self c t
      exact ihm y this
    · intro x hx
      rw [cumsumBoolFrom] at hx
      rcases List.mem_cons.mp hx with h | h
      · omega
      · have := ihm x h
        omega

theorem mem_of_head? {l : List α} {a : α} (h : a ∈ l.head?) : a ∈ l := by
  cases l with
  | nil => cases h
  | cons b t =>
    simp only [List.head?_cons, Option.mem_def, Option.some.injEq] at h
    rw [← h]
    exact List.mem_cons_self b t

theorem mem_of_getLast? {l : List α} {a : α} (h : a ∈ l.getLast?) : a ∈ l := by
  obtain ⟨hne, rfl⟩ := List.mem_getLast?_eq_getLast h
  exact List.getLast_mem hne

theorem offsetRows_flatten_spec (rows : List (List Nat)) (m : Nat)
    (hchain : ∀ row ∈ rows, List.Chain' (· ≤ ·) row)
    (hne : ∀ row ∈ rows, row ≠ []) :
    List.Chain' (· ≤ ·) (offsetRows m rows).flatten ∧
    ∀ x ∈ (offsetRows m rows).flatten, m ≤ x := by
  induction rows generalizing m with
  | nil => exact ⟨List.chain'_nil, by simp [offsetRows]⟩
  | cons r rest ih =>
    have hrne : r ≠ [] := hne r (List.mem_cons_self r rest)
    have hrc : List.Chain' (· ≤ ·) r := hchain r (List.mem_cons_self r rest)
    obtain ⟨ihc, ihm⟩ := ih (maxL (r.map (· + m)))
      (fun row hr => hchain row (List.mem_cons_of_mem r hr))
      (fun row hr => hne row (List.mem_cons_of_mem r hr))
    have hmapc : List.Chain' (· ≤ ·) (r.map (· + m)) := by
      rw [List.chain'_map]
      exact hrc.imp fun a b h => Nat.add_le_add_right h m
    have hmem_ge : ∀ x ∈ r.map (· + m), m ≤ x := by
      intro x hx
      obtain ⟨v, _, hvx⟩ := List.mem_map.mp hx
      omega
    have hm_le : ∀ x ∈ r.map (· + m), x ≤ maxL (r.map (· + m)) := fun x hx => le_maxL hx
    constructor
    · rw [offsetRows, List.flatten_cons]
      refine List.Chain'.append hmapc ihc ?_
      intro x hx y hy
      have hx1 : x ≤ maxL (r.map (· + m)) := hm_le x (mem_of_getLast? hx)
      have hy1 : maxL (r.map (· + m)) ≤ y := ihm y (mem_of_head? hy)
      omega
    · intro x hx
      rw [offsetRows, List.flatten_cons] at hx
      rcases List.mem_append.mp hx with h | h
      · exact hmem_ge x h
      · have h1 := ihm x h
        obtain ⟨v, hv⟩ := List.exists_mem_of_ne_nil r hrne
        have h2 : v + m ∈ r.map (· + m) := List.mem_map.mpr ⟨v, hv, rfl⟩
        have h3 := hm_le _ h2
        omega

/-- An input of shape `[2, 2]` with no done flag anywhere: both derived id
rows are `[0, 0]`, so trajectory ids do repeat across rows. -/
theorem computeTrajIds_repeat_cex :
    computeTrajIds [[false, false], [false, false]] = [[0, 0], [0, 0]] ∧
    (0 ∈ (computeTrajIds [[false, false], [false, false]]).getD 0 []) ∧
    (0 ∈ (computeTrajIds [[false, false], [false, false]]).getD 1 []) := by
  decide

/-- Claim C9 (amended): with no `traj_ids` entry, ids are the inclusive
cumulative sum of `("next","done")` along the last dimension, each later row
offset by the previous (offset) row's maximum — which makes the flattened
ids non-decreasing but does not prevent a row's first run from sharing the
previous row's maximum id.  Consequently a transition whose done flag is
set carries the same id as the following trajectory's transitions (the id
increments at that very transition), not the id of the run it terminates. -/
theorem derived_traj_ids_spec (done : List Bool) (k : Nat)
    (hk1 : k + 1 < done.length) (hdk : done.getD k false = true)
    (done2 : List (List Bool)) (hrows : ∀ row ∈ done2, row ≠ []) :
    (done.getD (k + 1) false = false →
      (cumsumBool done).getD (k + 1) 0 = (cumsumBool done).getD k 0) ∧
    (∀ j, j + 1 = k → (cumsumBool done).getD k 0 = (cumsumBool done).getD j 0 + 1) ∧
    List.Chain' (· ≤ ·) (computeTrajIds done2).flatten := by
  refine ⟨?_, ?_, ?_⟩
  · intro hnext
    rw [cumsumBool, cumsumBoolFrom_step done 0 k hk1, hnext]
    simp
  · intro j hj
    have hjk : j + 1 < done.length := by omega
    rw [cumsumBool, ← hj, cumsumBoolFrom_step done 0 j hjk, hj, hdk]
    simp
  · cases done2 with
    | nil => simp [computeTrajIds]
    | cons d drest =>
      rw [computeTrajIds]
      simp only [List.map_cons]
      rw [List.flatten_cons]
      have hd_chain := (cumsumBoolFrom_chain d 0).1
      obtain ⟨hrc, hrm⟩ := offsetRows_flatten_spec (drest.map cumsumBool) (maxL (cumsumBool d))
        (by
          intro row hr
          obtain ⟨d', _, hd'⟩ := List.mem_map.mp hr
          rw [← hd']
          exact (cumsumBoolFrom_chain d' 0).1)
        (by
          intro row hr
          obtain ⟨d', hd'mem, hd'⟩ := List.mem_map.mp hr
          rw [← hd']
          have : d' ≠ [] := hrows d' (List.mem_cons_of_mem d hd'mem)
          intro hcontra
          have := congrArg List.length hcontra
          rw [cumsumBool, cumsumBoolFrom_length] at this
          exact absurd (List.eq_nil_of_length_eq_zero this) ‹d' ≠ []›)
      refine List.Chain'.append hd_chain hrc ?_
      intro x hx y hy
      have hx1 : x ≤ maxL (cumsumBool d) := le_maxL (mem_of_getLast? hx)
      have hy1 := hrm y (mem_of_head? hy)
      omega

theorem derived_traj_ids_spec_witness :
    List.Chain' (· ≤ ·) (computeTrajIds [[false, true], [true, false]]).flatten :=
  (derived_traj_ids_spec [false, true, false] 1 (by decide) (by decide)
    [[false, true], [true, false]] (by decide)).2.2

/-!
Embedding of `DistributedCollector` (distributed_collector.py).

The frame-count loop shared by `sync_iterator` and `async_iterator` is
`while self.collected_frames < self.total_frames: ... collected_frames +=
out_td.numel(); yield out_td`, modelled by `iterYields` over the sizes of
the successive batches the workers would produce.

A remote worker is a `Child`: the rollout it would deliver this cycle and
the (discrete) time at which that rollout task completes.  A cycle of each
iterator is modelled by the trace of remote operations it performs, in
source-statement order; `Event.awaitAck` stands for a blocking
`ray.get` on a weight-update future, which the source never performs.
-/

/-- The yield loop of both iterators: starting from `collected` frames
already counted, process the successive batch sizes while
`collected < totalFrames`, counting each yielded batch's frames. -/
def iterYields (totalFrames : Int) : Int → List Nat → List Nat
  | _, [] => []
  | collected, b :: bs =>
    if collected < totalFrames then b :: iterYields totalFrames (collected + b) bs
    else []

/-- A remote collector with the rollout it would produce in the current
cycle and the completion time of that rollout task. -/
structure Child where
  result : List Int
  time : Nat
deriving Repr, DecidableEq

/-- How many children's rollout futures are ready at time `t`. -/
def readyAt (cs : List Child) (t : Nat) : Nat :=
  (cs.filter (fun c => c.time ≤ t)).length

/-- The time at which the sync busy-wait loop (`while len(samples_ready) <
num_collectors - 1`) exits: when the slowest child is done. -/
def syncWaitTime (cs : List Child) : Nat := maxL (cs.map Child.time)

/-- `torch.cat` of the children's rollouts in the order of
`pending_samples`, i.e. construction-time order. -/
def syncCollect (cs : List Child) : List Int := (cs.map Child.result).flatten

/-- One remote operation performed by an iterator cycle. -/
inductive Event where
  | sendWeights (i : Nat)
  | awaitAck (i : Nat)
  | dispatch (i : Nat)
  | fetch (i : Nat)
  | yieldBatch (b : List Int)
deriving Repr, DecidableEq

/-- The remote operations of one `sync_iterator` cycle, in source order:
push the state dict to every remote collector (fire-and-forget), dispatch
`rollout.remote()` to every remote collector, wait, then fetch every result
in dispatch order and yield their concatenation. -/
def syncCycleTrace (cs : List Child) : List Event :=
  ((List.range cs.length).map Event.sendWeights) ++
    (((List.range cs.length).map Event.dispatch) ++
      (((List.range cs.length).map Event.fetch) ++
        [Event.yieldBatch (syncCollect cs)]))

def isAck : Event → Bool
  | .awaitAck _ => true
  | _ => false

def isSend : Event → Bool
  | .sendWeights _ => true
  | _ => false

/-- The earliest completion time among the pending children. -/
def minTime : List Child → Nat
  | [] => 0
  | [c] => c.time
  | c :: c' :: rest => min c.time (minTime (c' :: rest))

/-- The child `ray.wait` hands back first: the first (in pending order)
among those with the earliest completion time. -/
def firstFinished (cs : List Child) : Nat :=
  cs.findIdx (fun c => c.time == minTime cs)

/-- The rollout retrieved by one `async_iterator` cycle. -/
def asyncCycleBatch (cs : List Child) : List Int :=
  (cs.getD (firstFinished cs) ⟨[], 0⟩).result

/-- The remote operations of one `async_iterator` cycle, in source order:
fetch the first finished child's rollout, push the latest state dict to that
child, re-dispatch `rollout.remote()` on it, then yield the batch. -/
def asyncCycleTrace (cs : List Child) : List Event :=
  [Event.fetch (firstFinished cs), Event.sendWeights (firstFinished cs),
    Event.dispatch (firstFinished cs), Event.yieldBatch (asyncCycleBatch cs)]

/-- Collector instances the constructor creates. -/
inductive InitEffect where
  | makeLocal
  | makeRemote
deriving Repr, DecidableEq

/-- The fields `__init__` stores on a successfully built collector set. -/
structure CollectorState where
  collectedFrames : Int
  totalFrames : Int
  communication : String
  numCollectors : Nat
deriving Repr, DecidableEq

/-- The constructor of `DistributedCollector`: validate the `communication`
argument (first statement; a bad value raises before anything is built),
then record the state and create one local collector plus
`num_collectors - 1` remote ones.  The first component lists the collector
instances created before the call returned or raised. -/
def initCollector (communication : String) (numCollectors : Nat) (totalFrames : Int) :
    List InitEffect × Except String CollectorState :=
  if communication ∉ (["sync", "async"] : List String) then
    ([], Except.error "Communication parameter in CollectorSet has to be sync or async.")
  else
    (InitEffect.makeLocal ::
        (if numCollectors > 1 then List.replicate (numCollectors - 1) InitEffect.makeRemote
         else []),
      Except.ok
        { collectedFrames := 0, totalFrames := totalFrames,
          communication := communication, numCollectors := numCollectors })

theorem iterYields_general (total : Int) (bs : List Nat) (c : Int) :
    iterYields total c bs = bs.take (iterYields total c bs).length ∧
    (∀ k, k < (iterYields total c bs).length →
      c + ((bs.take k).sum : Int) < total) ∧
    ((iterYields total c bs).length < bs.length →
      total ≤ c + ((bs.take (iterYields total c bs).length).sum : Int)) ∧
    (total ≤ c → iterYields total c bs = []) := by
  induction bs generalizing c with
  | nil => simp [iterYields]
  | cons b bs ih =>
    by_cases h : c < total
    · obtain ⟨ih1, ih2, ih3, _⟩ := ih (c + b)
      rw [iterYields, if_pos h]
      refine ⟨?_, ?_, ?_, ?_⟩
      · simp only [List.length_cons, List.take_succ_cons]
        exact congrArg (b :: ·) ih1
      · intro k hk
        cases k with
        | zero => simpa using h
        | succ j =>
          have hj : j < (iterYields total (c + b) bs).length := by
            simpa [Nat.succ_lt_succ_iff] using hk
          have := ih2 j hj
          simp only [List.take_succ_cons, List.sum_cons, Nat.cast_add]
          omega
      · intro hlt
        have hlt' : (iterYields total (c + b) bs).length < bs.length := by
          simpa [Nat.succ_lt_succ_iff] using hlt
        have := ih3 hlt'
        simp only [List.length_cons, List.take_succ_cons, List.sum_cons, Nat.cast_add]
        omega
      · intro h2
        exact absurd h (not_lt.mpr h2)
    · rw [iterYields, if_neg h]
      refine ⟨rfl, ?_, ?_, fun _ => rfl⟩
      · intro k hk
        simp at hk
      · intro _
        simpa using not_lt.mp h

/-- Claim C3 (amended): both iterators re-check
`collected_frames < total_frames` before every pull and stop as soon as the
cumulative count reaches the cap, but the final batch is yielded whole — the
cumulative count may overshoot `total_frames` — and a non-positive cap
(including `total_frames = -1`) yields no batch at all rather than being
unbounded. -/
theorem collector_iterator_frame_cap (total : Int) (bs : List Nat) :
    iterYields total 0 bs = bs.take (iterYields total 0 bs).length ∧
    (∀ k, k < (iterYields total 0 bs).length → ((bs.take k).sum : Int) < total) ∧
    ((iterYields total 0 bs).length < bs.length →
      total ≤ ((bs.take (iterYields total 0 bs).length).sum : Int)) ∧
    (total ≤ 0 → iterYields total 0 bs = []) := by
  have h := iterYields_general total bs 0
  simpa using h

/-- Counterexample to claim C3: with `total_frames = 5` and two size-4
batches, both batches are yielded whole — the final one is not truncated and
the cumulative count 8 differs from the cap 5; with `total_frames = -1` the
guard is false at once and nothing is yielded, instead of unbounded
collection. -/
theorem collector_iterator_frame_cap_cex :
    iterYields 5 0 [4, 4] = [4, 4] ∧
    ((4 : Int) + 4 ≠ 5) ∧
    iterYields (-1) 0 [4, 4] = [] := by
  decide

theorem filter_length_eq_all {p : α → Bool} {l : List α}
    (h : (l.filter p).length = l.length) : ∀ a ∈ l, p a = true := by
  induction l with
  | nil => simp
  | cons a l ih =>
    cases hp : p a with
    | true =>
      intro x hx
      rcases List.mem_cons.mp hx with hxa | hxl
      · rw [hxa, hp]
      · refine ih ?_ x hxl
        rw [List.filter_cons, hp] at h
        simpa using h
    | false =>
      exfalso
      rw [List.filter_cons, hp] at h
      simp only [Bool.false_eq_true, if_neg] at h
      have := List.length_filter_le p l
      simp at h
      omega

/-- Claim C4: one sync cycle dispatches a rollout request to every remote
child, its busy-wait loop exits exactly when the slowest child has finished
(every child has completed by then), and the yielded batch is the
concatenation of the children's results in construction-time order —
unchanged under any change of the children's completion times. -/
theorem sync_cycle_spec (cs cs' : List Child)
    (hres : cs.map Child.result = cs'.map Child.result) :
    (∀ i, i < cs.length → Event.dispatch i ∈ syncCycleTrace cs) ∧
    (∀ c ∈ cs, c.time ≤ syncWaitTime cs) ∧
    readyAt cs (syncWaitTime cs) = cs.length ∧
    (∀ t, readyAt cs t = cs.length → syncWaitTime cs ≤ t) ∧
    syncCollect cs = (cs.map Child.result).flatten ∧
    syncCollect cs = syncCollect cs' := by
  refine ⟨?_, ?_, ?_, ?_, rfl, ?_⟩
  · intro i hi
    exact List.mem_append_right _ (List.mem_append_left _
      (List.mem_map_of_mem Event.dispatch (List.mem_range.mpr hi)))
  · intro c hc
    exact le_maxL (List.mem_map_of_mem Child.time hc)
  · rw [readyAt]
    have hall : cs.filter (fun c => c.time ≤ syncWaitTime cs) = cs :=
      List.filter_eq_self.mpr fun c hc => by
        simpa using le_maxL (List.mem_map_of_mem Child.time hc)
    rw [hall]
  · intro t ht
    have hall := filter_length_eq_all ht
    refine maxL_le ?_
    intro x hx
    obtain ⟨c, hc, hcx⟩ := List.mem_map.mp hx
    have := hall c hc
    simp only [decide_eq_true_eq] at this
    omega
  · rw [syncCollect, syncCollect, hres]

theorem sync_cycle_spec_witness :
    syncCollect [⟨[1], 5⟩, ⟨[2], 3⟩] = syncCollect [⟨[1], 0⟩, ⟨[2], 9⟩] :=
  (sync_cycle_spec [⟨[1], 5⟩, ⟨[2], 3⟩] [⟨[1], 0⟩, ⟨[2], 9⟩] rfl).2.2.2.2.2

/-- Counterexample to claim C6: the sync cycle pushes weights with
fire-and-forget remote calls — its trace contains weight sends but not one
blocking acknowledgment wait, so the update does not block until every
child has acknowledged the snapshot. -/
theorem sync_update_no_ack_cex :
    (syncCycleTrace [⟨[1], 0⟩, ⟨[2], 3⟩]).any isSend = true ∧
    (syncCycleTrace [⟨[1], 0⟩, ⟨[2], 3⟩]).any isAck = false := by
  decide

/-- Claim C6 (amended): the sync iterator sends the new state dict to each
child before dispatching that child's collection request (so with ray's
per-actor in-order execution the next rollout of every child uses the new
weights), but it never waits for an acknowledgment: the cycle trace
contains no blocking wait on a weight-update future. -/
theorem sync_weights_sent_before_dispatch (cs : List Child) (i : Nat)
    (hi : i < cs.length) :
    (∃ k1 k2 : Nat, k1 < k2 ∧
      (syncCycleTrace cs)[k1]? = some (Event.sendWeights i) ∧
      (syncCycleTrace cs)[k2]? = some (Event.dispatch i)) ∧
    (syncCycleTrace cs).any isAck = false := by
  constructor
  · refine ⟨i, cs.length + i, by omega, ?_, ?_⟩
    · rw [syncCycleTrace, List.getElem?_append_left (by simpa using hi),
        List.getElem?_map, List.getElem?_range hi]
      rfl
    · rw [syncCycleTrace,
        List.getElem?_append_right (by simp [Nat.le_add_right])]
      simp only [List.length_map, List.length_range, Nat.add_sub_cancel_left]
      rw [List.getElem?_append_left (by simpa using hi),
        List.getElem?_map, List.getElem?_range hi]
      rfl
  · simp [syncCycleTrace, List.any_append, List.any_map, isAck, Function.comp]

theorem sync_weights_sent_before_dispatch_witness :
    (∃ k1 k2 : Nat, k1 < k2 ∧
      (syncCycleTrace [⟨[1], 0⟩, ⟨[2], 3⟩])[k1]? = some (Event.sendWeights 0) ∧
      (syncCycleTrace [⟨[1], 0⟩, ⟨[2], 3⟩])[k2]? = some (Event.dispatch 0)) ∧
    (syncCycleTrace [⟨[1], 0⟩, ⟨[2], 3⟩]).any isAck = false :=
  sync_weights_sent_before_dispatch [⟨[1], 0⟩, ⟨[2], 3⟩] 0 (by decide)

theorem minTime_le {cs : List Child} : ∀ c ∈ cs, minTime cs ≤ c.time := by
  induction cs with
  | nil => simp
  | cons c rest ih =>
    intro x hx
    cases rest with
    | nil =>
      have : x = c := by simpa using hx
      rw [this, minTime]
    | cons c' r' =>
      rw [minTime]
      rcases List.mem_cons.mp hx with hxa | hxl
      · rw [hxa]
        exact Nat.min_le_left _ _
      · exact le_trans (Nat.min_le_right _ _) (ih x hxl)

theorem minTime_attained {cs : List Child} (hne : cs ≠ []) :
    ∃ c ∈ cs, c.time = minTime cs := by
  induction cs with
  | nil => exact absurd rfl hne
  | cons c rest ih =>
    cases rest with
    | nil => exact ⟨c, List.mem_cons_self c [], rfl⟩
    | cons c' r' =>
      rcases le_total c.time (minTime (c' :: r')) with h | h
      · exact ⟨c, List.mem_cons_self _ _, by rw [minTime, Nat.min_eq_left h]⟩
      · obtain ⟨d, hd, hdt⟩ := ih (by simp)
        exact ⟨d, List.mem_cons_of_mem c hd, by rw [minTime, Nat.min_eq_right h, hdt]⟩

/-- Claim C5: one async cycle retrieves the rollout of the first child to
finish among those with in-flight work (minimal completion time, earliest in
pending order on ties), and its trace fetches, pushes the latest weights to
that child, re-dispatches that child, and only then yields the batch. -/
theorem async_cycle_spec (cs : List Child) (hne : cs ≠ []) :
    firstFinished cs < cs.length ∧
    (∀ c ∈ cs, (cs.getD (firstFinished cs) ⟨[], 0⟩).time ≤ c.time) ∧
    asyncCycleBatch cs = (cs.getD (firstFinished cs) ⟨[], 0⟩).result ∧
    (∃ kf kw kd ky : Nat, kf < kw ∧ kw < kd ∧ kd < ky ∧
      (asyncCycleTrace cs)[kf]? = some (Event.fetch (firstFinished cs)) ∧
      (asyncCycleTrace cs)[kw]? = some (Event.sendWeights (firstFinished cs)) ∧
      (asyncCycleTrace cs)[kd]? = some (Event.dispatch (firstFinished cs)) ∧
      (asyncCycleTrace cs)[ky]? = some (Event.yieldBatch (asyncCycleBatch cs))) := by
  obtain ⟨c, hc, hct⟩ := minTime_attained hne
  have hex : ∃ x ∈ cs, (x.time == minTime cs) = true := ⟨c, hc, by simp [hct]⟩
  have hlt : firstFinished cs < cs.length := List.findIdx_lt_length_of_exists hex
  refine ⟨hlt, ?_, rfl, 0, 1, 2, 3, by omega, by omega, by omega, rfl, rfl, rfl, rfl⟩
  intro d hd
  have hpick : ((cs.get ⟨firstFinished cs, hlt⟩).time == minTime cs) = true := by
    simpa [firstFinished] using
      @List.findIdx_getElem Child (fun c => c.time == minTime cs) cs hlt
  have hgd : cs.getD (firstFinished cs) ⟨[], 0⟩ = cs.get ⟨firstFinished cs, hlt⟩ :=
    List.getD_eq_getElem cs ⟨[], 0⟩ hlt
  have hpick' : (cs.get ⟨firstFinished cs, hlt⟩).time = minTime cs := by
    simpa using hpick
  rw [hgd, hpick']
  exact minTime_le d hd

theorem async_cycle_spec_witness :
    firstFinished [⟨[7], 4⟩, ⟨[8], 2⟩] < ([⟨[7], 4⟩, ⟨[8], 2⟩] : List Child).length :=
  (async_cycle_spec [⟨[7], 4⟩, ⟨[8], 2⟩] (by decide)).1

/-- Claim C10: the constructor raises exactly when `communication` is
neither "sync" nor "async", and in the error case it returns before creating
any local or remote collector; on valid input the local collector is created
first, followed by `num_collectors - 1` remote ones. -/
theorem init_validates_communication (comm : String) (n : Nat) (tf : Int) :
    ((∃ msg, (initCollector comm n tf).2 = Except.error msg) ↔
      ¬ (comm = "sync" ∨ comm = "async")) ∧
    (¬ (comm = "sync" ∨ comm = "async") → (initCollector comm n tf).1 = []) ∧
    ((comm = "sync" ∨ comm = "async") →
      (initCollector comm n tf).1.head? = some InitEffect.makeLocal ∧
      (initCollector comm n tf).1.count InitEffect.makeRemote =
        (if n > 1 then n - 1 else 0)) := by
  by_cases hval : comm = "sync" ∨ comm = "async"
  · have hin : comm ∈ (["sync", "async"] : List String) := by
      rcases hval with h | h <;> simp [h]
    have hred : initCollector comm n tf =
        (InitEffect.makeLocal ::
            (if n > 1 then List.replicate (n - 1) InitEffect.makeRemote else []),
          Except.ok
            { collectedFrames := 0, totalFrames := tf,
              communication := comm, numCollectors := n }) := by
      unfold initCollector
      rw [if_neg (not_not_intro hin)]
    rw [hred]
    refine ⟨?_, fun h => absurd hval h, fun _ => ⟨?_, ?_⟩⟩
    · constructor
      · rintro ⟨msg, hmsg⟩
        cases hmsg
      · intro h
        exact absurd hval h
    · by_cases hn : n > 1 <;> simp [hn]
    · by_cases hn : n > 1
      · rw [if_pos hn, if_pos hn, List.count_cons, List.count_replicate_self]
        simp
      · rw [if_neg hn, if_neg hn]
        simp [List.count_cons]
  · have hnin : comm ∉ (["sync", "async"] : List String) := by
      simpa using hval
    have hred : initCollector comm n tf =
        ([], Except.error
          "Communication parameter in CollectorSet has to be sync or async.") := by
      unfold initCollector
      rw [if_pos hnin]
    rw [hred]
    exact ⟨⟨fun _ => hval, fun _ => ⟨_, rfl⟩⟩, fun _ => rfl, fun h => absurd h hval⟩

end TorchRL
